import Mathlib

/-
  Verification of the VibeCheck scanner core (heuristic detection engine).

  This file gives a shallow embedding, in Lean 4, of the parts of the
  TypeScript source that the specification claims talk about:

  * the finding model and severity enum          (src/engine/types.ts)
  * baseline suppression                         (src/engine/baseline.ts)
  * the execution engine with crash isolation    (src/engine/runRules.ts)
  * the discovery prepass                        (utils/discoverAuthGuards.ts)
  * the snippet object scanner                   (src/rules/prisma/writeTenantBoundary.ts)
  * line/column computation and report adapters  (src/rules/_shared.ts, src/engine/sarif.ts, report)

  Strings that the embedded code manipulates character by character are
  modelled as `List Char`; strings that are handled atomically (ids,
  messages, paths) stay `String`.  JavaScript `Map` and `Set` values are
  modelled as association lists and duplicate-free lists in insertion
  order, which matches the observable behaviour of the source because the
  source only ever builds them through `set` / `add`.
-/

set_option autoImplicit false

namespace VibeCheck

/-! ## Data model (src/engine/types.ts) -/

/-- Severity enum of findings: blocker > high > med > low > info. -/
inductive Severity where
  | blocker
  | high
  | med
  | low
  | info
deriving DecidableEq, Repr

/-- Target stack tags, including the wildcard `auto`. -/
inductive StackName where
  | auto
  | nextjs
  | vite
  | nestjs
deriving DecidableEq, Repr

/-- String rendering of a severity, as used when findings are serialised. -/
def sevStr : Severity → String
  | .blocker => "blocker"
  | .high => "high"
  | .med => "med"
  | .low => "low"
  | .info => "info"

/-- Finding record (interface Finding in src/engine/types.ts). -/
structure Finding where
  ruleId : String
  severity : Severity
  message : String
  file : String
  line : Option Nat := none
  col : Option Nat := none
  fixHint : Option String := none
deriving DecidableEq, Repr

/-- Rendering of the optional line/col fields inside a baseline key:
JavaScript `String(f.line ?? "")` yields the decimal digits when present
and the empty string when absent. -/
def optNatStr : Option Nat → String
  | none => ""
  | some n => toString n

/-! ## JavaScript Map / Set models

The source uses `Map<string, number>` through `get` / `set` only, and
`Set<string>` through `add` / spread only.  We model a map as an
association list in insertion order (`jsSet` overwrites in place or
appends) and a set as a duplicate-free list in insertion order. -/

/-- Model of `Map.get`: first entry with the key, if any. -/
def jsGet (m : List (String × Nat)) (k : String) : Option Nat :=
  match m with
  | [] => none
  | e :: r => if e.1 = k then some e.2 else jsGet r k

/-- Model of `Map.set`: overwrite the entry in place, else append. -/
def jsSet (m : List (String × Nat)) (k : String) (v : Nat) : List (String × Nat) :=
  match m with
  | [] => [(k, v)]
  | e :: r => if e.1 = k then (k, v) :: r else e :: jsSet r k v

/-- Model of `new Map(entries)`: insert every entry in order (a later
entry with the same key overwrites an earlier one). -/
def fromEntries (l : List (String × Nat)) : List (String × Nat) :=
  l.foldl (fun m e => jsSet m e.1 e.2) []

/-- Model of `Set.add` on a string set kept in insertion order. -/
def sAdd (s : List String) (x : String) : List String :=
  if x ∈ s then s else s ++ [x]

/-! ## Baseline suppression (src/engine/baseline.ts) -/

/-- Baseline document: version plus (key, count) items. -/
structure Baseline where
  version : Nat := 1
  items : List (String × Nat)
deriving DecidableEq, Repr

/-- keyOf from src/engine/baseline.ts: the signature
`ruleId|severity|file|line|col|message` of a finding. -/
def keyOf (f : Finding) : String :=
  String.intercalate ("|")
    [f.ruleId, sevStr f.severity, f.file, optNatStr f.line, optNatStr f.col, f.message]

/-- Counting loop of writeBaseline: for each finding bump the count stored
under its key.  (Accumulator generalised for the proofs.) -/
def countsGo (m : List (String × Nat)) : List Finding → List (String × Nat)
  | [] => m
  | f :: r => countsGo (jsSet m (keyOf f) ((jsGet m (keyOf f)).getD 0 + 1)) r

/-- writeBaseline from src/engine/baseline.ts, modelled as the baseline
document it serialises (the `writeFile` call is I/O outside the core). -/
def writeBaseline (findings : List Finding) : Baseline :=
  { version := 1, items := countsGo [] findings }

/-- Main loop of applyBaseline: `allowed` is the baseline map, `seen`
the per-key running counter consumed in finding order. -/
def applyGo (allowed : List (String × Nat)) (seen : List (String × Nat)) :
    List Finding → List Finding
  | [] => []
  | f :: r =>
    let k := keyOf f
    let cur := (jsGet seen k).getD 0
    let lim := (jsGet allowed k).getD 0
    if cur < lim then applyGo allowed (jsSet seen k (cur + 1)) r
    else f :: applyGo allowed seen r

/-- applyBaseline from src/engine/baseline.ts. -/
def applyBaseline (findings : List Finding) (b : Baseline) : List Finding :=
  applyGo (fromEntries b.items) [] findings

/-! ## Severity summary and exit code (src/engine/report.ts) -/

/-- Count-by-severity summary record. -/
structure Summary where
  blocker : Nat := 0
  high : Nat := 0
  med : Nat := 0
  low : Nat := 0
  info : Nat := 0
deriving DecidableEq, Repr

/-- One step of the summarize reducer: `acc[f.severity] += 1`. -/
def bump (s : Summary) (sev : Severity) : Summary :=
  match sev with
  | .blocker => { s with blocker := s.blocker + 1 }
  | .high => { s with high := s.high + 1 }
  | .med => { s with med := s.med + 1 }
  | .low => { s with low := s.low + 1 }
  | .info => { s with info := s.info + 1 }

/-- summarize from src/engine/report.ts. -/
def summarize (findings : List Finding) : Summary :=
  findings.foldl (fun acc f => bump acc f.severity) {}

/-- exitCode from src/engine/report.ts: strict mode maps the summary to
2 / 1 / 0, non-strict mode always returns 0.  JavaScript truthiness of a
count is "nonzero". -/
def exitCode (findings : List Finding) (strict : Bool) : Nat :=
  if !strict then 0
  else
    let s := summarize findings
    if s.blocker ≠ 0 then 2
    else if s.high ≠ 0 then 1
    else 0

/-! ## Character classes used by the embedded scanners -/

/-- Membership in the JavaScript regular-expression class backslash-s
(whitespace), by code point. -/
def isJsSpace (c : Char) : Bool :=
  let n := c.toNat
  n = 0x20 || n = 0x09 || n = 0x0a || n = 0x0d || n = 0x0b || n = 0x0c ||
  n = 0xa0 || n = 0x1680 || (0x2000 ≤ n && n ≤ 0x200a) ||
  n = 0x2028 || n = 0x2029 || n = 0x202f || n = 0x205f || n = 0x3000 || n = 0xfeff

/-- Membership in the JavaScript word class backslash-w: ASCII letters,
digits and underscore, by code point. -/
def isWordChar (c : Char) : Bool :=
  let n := c.toNat
  (65 ≤ n && n ≤ 90) || (97 ≤ n && n ≤ 122) || (48 ≤ n && n ≤ 57) || n = 95

/-- Modelled from the spec: the path helper `toPosix` (utils/path.ts) is
not among the provided sources; it normalises OS path separators, so we
model it as replacing every backslash with a forward slash.  No claim in
this development depends on its behaviour beyond being a pure path
normaliser. -/
def toPosix (p : String) : String :=
  String.mk (p.toList.map (fun c => if c = '\\' then '/' else c))

/-- JavaScript `String.prototype.trim`, over the whitespace class. -/
def jsTrim (s : String) : String :=
  String.mk (((s.toList.dropWhile isJsSpace).reverse.dropWhile isJsSpace).reverse)

/-- Substring test on character lists (JavaScript `String.includes`). -/
def containsSub (pat : List Char) : List Char → Bool
  | [] => pat.isPrefixOf ([] : List Char)
  | c :: r => pat.isPrefixOf (c :: r) || containsSub pat r

/-- JavaScript `s.includes(pat)`. -/
def containsStr (s pat : String) : Bool :=
  containsSub pat.toList s.toList

/-- ASCII lowercasing of a string (for the case-insensitive regexes). -/
def lowerStr (s : String) : String :=
  String.mk (s.toList.map Char.toLower)

/-- JavaScript `String.startsWith`, by character list (kernel-reducible,
unlike the byte-based core primitive). -/
def strStartsWith (s pre : String) : Bool :=
  pre.toList.isPrefixOf s.toList

/-- JavaScript `String.endsWith`, by character list. -/
def strEndsWith (s suf : String) : Bool :=
  suf.toList.isSuffixOf s.toList

/-- Drop the final character of a string. -/
def strDropLast (s : String) : String :=
  String.mk s.toList.dropLast

/-! ## Snippet object scanner (src/rules/prisma/writeTenantBoundary.ts)

The scanner works on raw characters, so it is embedded over `List Char`.
The source has two byte-identical copies of extractInlineFirstArgObject
(the write-tenant-boundary rule and the missing-tenant-filter rule); the
embedding below is the shared algorithm. -/

/-- Suffix after the first occurrence of the given character (JavaScript
`indexOf` plus advancing past the character); none when it is absent. -/
def afterChar (target : Char) : List Char → Option (List Char)
  | [] => none
  | c :: r => if c = target then some r else afterChar target r

/-- State of the whitespace-and-comment skip loop of
extractInlineFirstArgObject: scanning normally, inside a line comment, or
inside a block comment. -/
inductive SkipMode where
  | norm
  | line
  | block
deriving DecidableEq, Repr

/-- The skip loop of extractInlineFirstArgObject, restructured as a
character-at-a-time state machine so that the recursion is structural.
Line mode models `indexOf("\n", i + 2)` and resuming at the character
after the newline; block mode models `indexOf("*/", i + 2)` and resuming
after the closer; exhausting the input inside either comment corresponds
to `indexOf` returning -1, where the source returns null.  In normal mode
the loop ends at the first significant character (or at the end of the
input) and the remaining suffix is produced. -/
def skipTrivia : SkipMode → List Char → Option (List Char)
  | .norm, [] => some []
  | .norm, '/' :: '/' :: rest => skipTrivia .line rest
  | .norm, '/' :: '*' :: rest => skipTrivia .block rest
  | .norm, c :: rest => if isJsSpace c then skipTrivia .norm rest else some (c :: rest)
  | .line, [] => none
  | .line, '\n' :: rest => skipTrivia .norm rest
  | .line, _ :: rest => skipTrivia .line rest
  | .block, [] => none
  | .block, '*' :: '/' :: rest => skipTrivia .norm rest
  | .block, _ :: rest => skipTrivia .block rest

/-- Brace-depth loop of extractInlineFirstArgObject: the depth (an
integer, as in the source) is updated per character, and the prefix up to
the current character is returned as soon as the updated depth is zero. -/
def scanBraces (depth : Int) : List Char → Option (List Char)
  | [] => none
  | c :: rest =>
    let d := if c = '{' then depth + 1 else if c = '}' then depth - 1 else depth
    if d = 0 then some [c] else (scanBraces d rest).map (fun t => c :: t)

/-- extractInlineFirstArgObject from
src/rules/prisma/writeTenantBoundary.ts: locate the opening parenthesis,
skip whitespace and comments, and return the balanced block when the next
significant character opens an inline object literal; otherwise none. -/
def extractInlineFirstArgObject (snippet : List Char) : Option (List Char) :=
  match afterChar '(' snippet with
  | none => none
  | some afterParen =>
    match skipTrivia .norm afterParen with
    | none => none
    | some sig =>
      match sig with
      | '{' :: _ => scanBraces 0 sig
      | _ => none

/-! ## Line and column computation (src/rules/_shared.ts) -/

/-- Split on the regular expression of one linefeed optionally preceded
by a carriage return (the split pattern of firstLineCol). -/
def splitRN : List Char → List (List Char)
  | [] => [[]]
  | '\r' :: '\n' :: rest => [] :: splitRN rest
  | '\n' :: rest => [] :: splitRN rest
  | c :: rest =>
    match splitRN rest with
    | h :: t => (c :: h) :: t
    | [] => [[c]]

/-- Last piece of a split (JavaScript lines[lines.length - 1]). -/
def lastSeg : List (List Char) → List Char
  | [] => []
  | [x] => x
  | _ :: r => lastSeg r

/-- firstLineCol from src/rules/_shared.ts: split the prefix before idx
on line terminators; line is the number of pieces and col the length of
the last piece. -/
def firstLineCol (code : String) (idx : Nat) : Nat × Nat :=
  let pre := code.toList.take idx
  let ls := splitRN pre
  (ls.length, (lastSeg ls).length)

/-- Region emitted per finding by toSarif (src/engine/sarif.ts):
startLine is the line defaulting to 1, startColumn is the column
defaulting to 0, plus one. -/
def sarifRegion (f : Finding) : Nat × Nat :=
  (f.line.getD 1, f.col.getD 0 + 1)

/-! ## Tenant-key detection (whereHasTenantKey)

whereHasTenantKey tests the regex of a word-bounded key followed by
optional whitespace and a colon.  The embedding interprets that regex for
identifier-shaped keys: an anchored matcher plus a scan over every start
position tracking the preceding character for the leading boundary. -/

/-- Regex tail after the key: optional whitespace, then a colon. -/
def wsColon : List Char → Bool
  | [] => false
  | c :: r => if c = ':' then true else if isJsSpace c then wsColon r else false

/-- Word-boundary test against the character before the match position
(none at the start of the block). -/
def boundaryOk : Option Char → Bool
  | none => true
  | some c => !isWordChar c

/-- Anchored test at the head of l: the key itself, a trailing word
boundary, then optional whitespace and a colon. -/
def matchesAt (k l : List Char) : Bool :=
  k.isPrefixOf l &&
    (let rest := l.drop k.length
     (match rest.head? with
      | some c => !isWordChar c
      | none => true) && wsColon rest)

/-- Scan over every start position of the block, tracking the previous
character for the leading word boundary. -/
def scanKeyGo (k : List Char) : Option Char → List Char → Bool
  | _, [] => false
  | prev, c :: rest =>
    (boundaryOk prev && matchesAt k (c :: rest)) || scanKeyGo k (some c) rest

/-- Whole-block test of one candidate key. -/
def hasKeyMatch (k block : List Char) : Bool :=
  scanKeyGo k none block

/-- whereHasTenantKey from src/rules/prisma/writeTenantBoundary.ts: some
candidate key matches its word-boundary regex somewhere in the block. -/
def whereHasTenantKey (whereBlock : String) (tenantKeys : List String) : Bool :=
  tenantKeys.any (fun key => hasKeyMatch key.toList whereBlock.toList)

/-- A candidate key in identifier shape: nonempty and all word
characters (the shape every tenant key of the rule has). -/
def IsIdentKey (k : List Char) : Prop :=
  k ≠ [] ∧ ∀ c ∈ k, isWordChar c = true

/-- Declarative occurrence of a key in a block: the block decomposes
around the key as a bare identifier preceded by a word boundary and
followed, after optional whitespace, by a colon. -/
def KeyOccurs (k block : List Char) : Prop :=
  ∃ pre ws post, block = pre ++ k ++ ws ++ ':' :: post
    ∧ (∀ c ∈ ws, isJsSpace c = true)
    ∧ (pre = [] ∨ ∃ c, pre.getLast? = some c ∧ isWordChar c = false)

/-! ## Discovery prepass (utils/discoverAuthGuards.ts) -/

/-- COMMON_GUARDS from utils/discoverAuthGuards.ts. -/
def COMMON_GUARDS : List String :=
  ["getServerSession", "unstable_getServerSession", "auth", "currentUser",
   "requireAuth", "requireUser", "requireWorkspace", "requireAuthedWorkspace",
   "withWorkspace", "withFeatureFlag"]

/-- DiscoveredAuth record from utils/discoverAuthGuards.ts. -/
structure DiscoveredAuth where
  guards : List String := []
  publicApiExact : List String := []
  publicApiPrefix : List String := []
  proxyApiPrefix : List String := []
deriving DecidableEq, Repr

/-- uniq from utils/discoverAuthGuards.ts: drop falsy (empty) strings,
then deduplicate in first-occurrence order (`new Set`).  The worker keeps
the set of already seen strings. -/
def jsUniqGo (seen : List String) : List String → List String
  | [] => []
  | s :: r => if s ∈ seen then jsUniqGo seen r else s :: jsUniqGo (s :: seen) r

/-- uniq from utils/discoverAuthGuards.ts. -/
def uniq (arr : List String) : List String :=
  jsUniqGo [] (arr.filter (fun s => s ≠ ""))

/-- normalizeApiPath from utils/discoverAuthGuards.ts: trim, ensure one
leading slash, drop a trailing slash (except on the root path). -/
def normalizeApiPath (p : String) : String :=
  let s := jsTrim p
  if s = "" then s
  else
    let s1 := if strStartsWith s ("/") then s else "/" ++ s
    if s1.toList.length > 1 && strEndsWith s1 ("/") then strDropLast s1 else s1

/-- Literal matcher for the regex scanners: consume `pat` at the head. -/
def matchLit (pat l : List Char) : Option (List Char) :=
  if pat.isPrefixOf l then some (l.drop pat.length) else none

/-- Regex piece backslash-s-plus: at least one whitespace character, with
maximal munch (every use site is followed by a non-whitespace literal, so
maximal munch is exact). -/
def skipWs1 : List Char → Option (List Char)
  | [] => none
  | c :: r => if isJsSpace c then some (r.dropWhile isJsSpace) else none

/-- Regex piece `[A-Za-z0-9_]+` with maximal munch: the captured word and
the remainder. -/
def takeWord1 (l : List Char) : Option (List Char × List Char) :=
  let w := l.takeWhile isWordChar
  if w.isEmpty then none else some (w, l.drop w.length)

/-- One anchored attempt of the regex
`export\s+(?:async\s+)?function\s+([A-Za-z0-9_]+)`: the greedy optional
`async` branch is tried first and the engine falls back to the branch
without it, exactly like the backtracking regex engine. -/
def tryFnMatch (l : List Char) : Option (List Char × List Char) :=
  match matchLit (("export").toList) l with
  | none => none
  | some l1 =>
    match skipWs1 l1 with
    | none => none
    | some l2 =>
      let fnPart := fun (lx : List Char) =>
        match matchLit (("function").toList) lx with
        | none => none
        | some ly =>
          match skipWs1 ly with
          | none => none
          | some lz => takeWord1 lz
      match (match matchLit (("async").toList) l2 with
             | some la =>
               match skipWs1 la with
               | some lb => fnPart lb
               | none => none
             | none => none) with
      | some res => some res
      | none => fnPart l2

/-- One anchored attempt of the regex
`export\s+const\s+([A-Za-z0-9_]+)\s*=`. -/
def tryConstMatch (l : List Char) : Option (List Char × List Char) :=
  match matchLit (("export").toList) l with
  | none => none
  | some l1 =>
    match skipWs1 l1 with
    | none => none
    | some l2 =>
      match matchLit (("const").toList) l2 with
      | none => none
      | some l3 =>
        match skipWs1 l3 with
        | none => none
        | some l4 =>
          match takeWord1 l4 with
          | none => none
          | some (name, r) =>
            match r.dropWhile isJsSpace with
            | '=' :: r3 => some (name, r3)
            | _ => none

/-- Model of a global regex `exec` loop: at each position try an anchored
match; on success record the capture and continue after the match, else
advance one character.  Every step consumes at least one character, so
fuel equal to the input length is enough and the fuel never runs out. -/
def execAll (try1 : List Char → Option (List Char × List Char)) :
    Nat → List Char → List (List Char)
  | 0, _ => []
  | _ + 1, [] => []
  | fuel + 1, c :: rest =>
    match try1 (c :: rest) with
    | some (name, rem) => name :: execAll try1 fuel rem
    | none => execAll try1 fuel rest

/-- One collected declaration name: add it to the guard set when it is a
catalogue name, and (independently) when it starts with `require` or
`with`, case-insensitively (both regexes carry the `i` flag). -/
def addGuardName (g : List String) (nameL : List Char) : List String :=
  let name := String.mk nameL
  let g1 := if name ∈ COMMON_GUARDS then sAdd g name else g
  if strStartsWith (lowerStr name) ("require") || strStartsWith (lowerStr name) ("with") then
    sAdd g1 name
  else g1

/-- discoverAuthGuardsFromCode from utils/discoverAuthGuards.ts.  The
`parseTs` validation attempt of the source is elided: its result is
discarded and its failures swallowed, so it has no observable effect. -/
def discoverAuthGuardsFromCode (code : String) : List String :=
  let l := code.toList
  let names := execAll tryFnMatch l.length l ++ execAll tryConstMatch l.length l
  let g2 := names.foldl addGuardName []
  COMMON_GUARDS.foldl (fun g c => if containsStr code c then sAdd g c else g) g2

/-- shouldScanFileForGuards from utils/discoverAuthGuards.ts. -/
def shouldScanFileForGuards (relPath : String) : Bool :=
  let p := toPosix relPath
  containsStr p ("/api/") || containsStr p ("/auth") ||
  strEndsWith p (".ts") || strEndsWith p (".tsx") || strEndsWith p (".js") || strEndsWith p (".jsx")

/-- First match of `marker\s+(\S+)` in one line: scan positions left to
right; at a marker occurrence require at least one whitespace character
and then a maximal nonempty non-whitespace token. -/
def hintToken (marker : List Char) : List Char → Option (List Char)
  | [] => none
  | c :: r =>
    match (if marker.isPrefixOf (c :: r) then
             match skipWs1 ((c :: r).drop marker.length) with
             | none => none
             | some r2 =>
               let tok := r2.takeWhile (fun ch => !isJsSpace ch)
               if tok.isEmpty then none else some tok
           else none) with
    | some t => some t
    | none => hintToken marker r

/-- discoverPublicApiHints from utils/discoverAuthGuards.ts: per line,
collect the tokens of the three inline hint markers, normalised. -/
def discoverPublicApiHints (code : String) :
    List String × List String × List String :=
  (code.splitOn ("\n")).foldl
    (fun acc line =>
      let lc := line.toList
      let e := match hintToken (("vibecheck:public-api").toList) lc with
               | some t => [normalizeApiPath (String.mk t)]
               | none => []
      let pp := match hintToken (("vibecheck:public-api-prefix").toList) lc with
                | some t => [normalizeApiPath (String.mk t)]
                | none => []
      let xp := match hintToken (("vibecheck:proxy-api-prefix").toList) lc with
                | some t => [normalizeApiPath (String.mk t)]
                | none => []
      (acc.1 ++ e, acc.2.1 ++ pp, acc.2.2 ++ xp))
    ([], [], [])

/-- inferProxyPrefixesFromPath from utils/discoverAuthGuards.ts. -/
def inferProxyPrefixesFromPath (p : String) : List String :=
  ((if containsStr p ("/app/api/embed-proxy/") then ["/api/embed-proxy"] else []) ++
   (if containsStr p ("/app/api/og/") then ["/api/og"] else []) ++
   (if containsStr p ("/app/api/stripe/webhook/") then ["/api/stripe/webhook"] else []) ++
   (if containsStr p ("/app/api/health/") then ["/api/health"] else []) ++
   (if containsStr p ("/app/api/_debug/") then ["/api/_debug"] else [])).map normalizeApiPath

/-! ## Scan context and configuration (src/engine/types.ts)

The TypeScript `CheckerConfig.auth` field is declared as the auth-kind
string, but the configuration loader spreads the JSON configuration file
over the defaults, so at runtime the field may carry the user auth object
that `mergeWithUserConfig` reads through `as any`.  We model the object
reading: each entry that is absent or not an array behaves as the empty
list, which is exactly what the `Array.isArray` guards yield. -/

/-- User-supplied auth allowlists (the `auth` object of vibecheck.json). -/
structure AuthUserConfig where
  guards : List String := []
  publicApiExact : List String := []
  publicApiPrefix : List String := []
  proxyApiPrefix : List String := []
deriving DecidableEq, Repr

/-- Resolved configuration record. -/
structure CheckerConfig where
  stack : StackName := .auto
  authGuards : List String := []
  ignore : List String := []
  maxFileBytes : Nat := 1000000
  auth : AuthUserConfig := {}
deriving Repr

/-- Detected repository information shared with rules. -/
structure RepoInfo where
  stack : StackName
deriving DecidableEq, Repr

/-- RuleContext from src/engine/types.ts.  `readFile` is the byte-limited
accessor (empty string means unreadable or oversize); `discovered` is the
slot the prepass stashes `__discoveredAuth` into. -/
structure RuleContext where
  rootDir : String
  files : List String
  relPaths : List String
  readFile : String → String
  config : CheckerConfig
  repo : RepoInfo
  discovered : Option DiscoveredAuth := none

/-- mergeWithUserConfig from utils/discoverAuthGuards.ts. -/
def mergeWithUserConfig (discovered : DiscoveredAuth) (ctx : RuleContext) :
    DiscoveredAuth :=
  let cfgAuth := ctx.config.auth
  { guards := uniq (discovered.guards ++ ((cfgAuth.guards.map jsTrim).filter (fun s => s ≠ ""))),
    publicApiExact :=
      uniq (discovered.publicApiExact ++ cfgAuth.publicApiExact.map normalizeApiPath),
    publicApiPrefix :=
      uniq (discovered.publicApiPrefix ++ cfgAuth.publicApiPrefix.map normalizeApiPath),
    proxyApiPrefix :=
      uniq (discovered.proxyApiPrefix ++ cfgAuth.proxyApiPrefix.map normalizeApiPath) }

/-- Per-file loop of discoverAuthGuards: walk the file list with the
parallel relative-path list (missing entries fall back to the absolute
path), filter by extension and eligibility, and accumulate guard symbols,
inline hints and inferred proxy prefixes. -/
def dGo (rf : String → String) :
    List String → List String → DiscoveredAuth → DiscoveredAuth
  | [], _, acc => acc
  | abs :: fs, rels, acc =>
    let rp := rels.headD abs
    let rtl := rels.tail
    let p := toPosix rp
    if !(strEndsWith p (".ts") || strEndsWith p (".tsx") || strEndsWith p (".js") || strEndsWith p (".jsx")) then
      dGo rf fs rtl acc
    else if !shouldScanFileForGuards p then dGo rf fs rtl acc
    else
      let code := rf abs
      if code = "" then dGo rf fs rtl acc
      else
        let g := (discoverAuthGuardsFromCode code).foldl sAdd acc.guards
        let h := discoverPublicApiHints code
        dGo rf fs rtl
          { guards := g,
            publicApiExact := acc.publicApiExact ++ h.1,
            publicApiPrefix := acc.publicApiPrefix ++ h.2.1,
            proxyApiPrefix := acc.proxyApiPrefix ++ h.2.2 ++ inferProxyPrefixesFromPath p }

/-- discoverAuthGuards from utils/discoverAuthGuards.ts: seed the guard
set with the whole catalogue, scan every eligible file, deduplicate and
normalise, then merge the user configuration on top. -/
def discoverAuthGuards (ctx : RuleContext) : DiscoveredAuth :=
  let d := dGo ctx.readFile ctx.files ctx.relPaths
    { guards := COMMON_GUARDS, publicApiExact := [], publicApiPrefix := [], proxyApiPrefix := [] }
  let discovered : DiscoveredAuth :=
    { guards := uniq d.guards,
      publicApiExact := uniq (d.publicApiExact.map normalizeApiPath),
      publicApiPrefix := uniq (d.publicApiPrefix.map normalizeApiPath),
      proxyApiPrefix := uniq (d.proxyApiPrefix.map normalizeApiPath) }
  mergeWithUserConfig discovered ctx

/-! ## Rule abstraction and execution engine (src/engine/runRules.ts)

A detection operation is modelled as returning `Except String`, the
failure carrying the thrown message; the engine catch converts a failure
into one info finding.  The modelled prepass is a total function, so the
corresponding catch branch of the source (reachable only through I/O
failures) has no counterpart here. -/

/-- Rule record from src/engine/types.ts. -/
structure MRule where
  id : String
  description : String := ""
  stack : List StackName
  run : RuleContext → Except String (List Finding)

/-- Stack filter of the engine loop: a rule runs when its stack list
holds the wildcard or the resolved stack. -/
def stackApplies (ctx : RuleContext) (r : MRule) : Bool :=
  r.stack.contains StackName.auto || r.stack.contains ctx.repo.stack

/-- One engine iteration: skip inapplicable rules, run applicable ones,
and convert a failure into the single crash finding of the source. -/
def runOne (ctx : RuleContext) (r : MRule) : List Finding :=
  if stackApplies ctx r then
    match r.run ctx with
    | .ok fs => fs
    | .error e =>
      [{ ruleId := r.id, severity := Severity.info,
         message := "Rule crashed: " ++ e, file := ctx.rootDir }]
  else []

/-- Prepass stash: runRules writes the discovery result onto the shared
context before any rule runs. -/
def enrich (ctx : RuleContext) : RuleContext :=
  { ctx with discovered := some (discoverAuthGuards ctx) }

/-- runRules from src/engine/runRules.ts: run the prepass once, then every
applicable rule in registration order, concatenating the findings. -/
def runRules (ctx : RuleContext) (rules : List MRule) : List Finding :=
  rules.flatMap (runOne (enrich ctx))

/-! ## Concrete scan contexts and rules used to instantiate theorems -/

/-- Minimal concrete scan context: empty corpus, default configuration. -/
def exCtx : RuleContext :=
  { rootDir := "/repo", files := [], relPaths := [], readFile := fun _ => "",
    config := {}, repo := { stack := StackName.nextjs } }

/-- Concrete finding used to instantiate the baseline theorems. -/
def exFinding : Finding :=
  { ruleId := "r1", severity := Severity.med, message := "m", file := "/repo/a.ts" }

/-- Concrete rule whose detection operation always fails. -/
def exBoomRule : MRule :=
  { id := "boom-rule", stack := [StackName.auto],
    run := fun _ => Except.error ("kaboom") }

/-- Concrete context whose user configuration holds one whitespace-only
guard entry. -/
def exCtxBlank : RuleContext :=
  { rootDir := "/repo", files := [], relPaths := [], readFile := fun _ => "",
    config := { auth := { guards := [" "] } },
    repo := { stack := StackName.nextjs } }

/-- Concrete context with nonempty user auth configuration entries. -/
def exCtxCfg : RuleContext :=
  { rootDir := "/repo", files := [], relPaths := [], readFile := fun _ => "",
    config := { auth := { guards := ["customGuard"],
                          publicApiExact := ["api/health/"],
                          publicApiPrefix := ["/api/embed"],
                          proxyApiPrefix := ["/api/hooks"] } },
    repo := { stack := StackName.nextjs } }

/-! ## Lemmas about the map model -/

theorem jsGet_jsSet_self (m : List (String × Nat)) (k : String) (v : Nat) :
    jsGet (jsSet m k v) k = some v := by
  induction m with
  | nil => simp [jsSet, jsGet]
  | cons e r ih =>
    by_cases h : e.1 = k
    · simp [jsSet, h, jsGet]
    · simp [jsSet, h, jsGet, ih]

theorem jsGet_jsSet_ne (m : List (String × Nat)) (k k' : String) (v : Nat)
    (h : k' ≠ k) : jsGet (jsSet m k v) k' = jsGet m k' := by
  induction m with
  | nil => simp [jsSet, jsGet, Ne.symm h]
  | cons e r ih =>
    by_cases he : e.1 = k
    · simp [jsSet, he, jsGet, Ne.symm h, h]
    · simp [jsSet, he, jsGet, ih, h]

theorem jsGet_eq_none_of_not_mem (m : List (String × Nat)) (k : String) :
    k ∉ m.map Prod.fst → jsGet m k = none := by
  induction m with
  | nil => intro _; rfl
  | cons e r ih =>
    intro h
    have h1 : ¬ (e.1 = k) := by
      intro hek
      exact h (by simp [← hek])
    have h2 : k ∉ List.map Prod.fst r := by
      intro hm
      exact h (by simp [hm])
    simp [jsGet, h1, ih h2]

theorem mem_keys_jsSet (m : List (String × Nat)) (k x : String) (v : Nat) :
    x ∈ (jsSet m k v).map Prod.fst → x ∈ m.map Prod.fst ∨ x = k := by
  induction m with
  | nil => intro h; simpa [jsSet] using h
  | cons e r ih =>
    intro h
    by_cases he : e.1 = k
    · simp only [jsSet, if_pos he] at h
      simp only [List.map_cons, List.mem_cons] at h ⊢
      rcases h with h | h
      · exact Or.inr h
      · exact Or.inl (Or.inr h)
    · simp only [jsSet, if_neg he] at h
      simp only [List.map_cons, List.mem_cons] at h ⊢
      rcases h with h | h
      · exact Or.inl (Or.inl h)
      · rcases ih h with h' | h'
        · exact Or.inl (Or.inr h')
        · exact Or.inr h'

theorem keys_nodup_jsSet (m : List (String × Nat)) (k : String) (v : Nat) :
    (m.map Prod.fst).Nodup → ((jsSet m k v).map Prod.fst).Nodup := by
  induction m with
  | nil => intro _; simp [jsSet]
  | cons e r ih =>
    intro h
    simp only [List.map_cons, List.nodup_cons] at h
    by_cases he : e.1 = k
    · simp only [jsSet, if_pos he, List.map_cons, List.nodup_cons]
      refine ⟨?_, h.2⟩
      rw [← he]
      exact h.1
    · simp only [jsSet, if_neg he, List.map_cons, List.nodup_cons]
      refine ⟨fun hmem => ?_, ih h.2⟩
      rcases mem_keys_jsSet r k e.1 v hmem with h' | h'
      · exact h.1 h'
      · exact he h'

theorem foldl_jsSet_get (l : List (String × Nat)) :
    ∀ (m : List (String × Nat)) (k : String),
      (l.map Prod.fst).Nodup →
      jsGet (l.foldl (fun m e => jsSet m e.1 e.2) m) k
        = (match jsGet l k with | some v => some v | none => jsGet m k) := by
  induction l with
  | nil => intro m k _; rfl
  | cons e r ih =>
    intro m k hnd
    simp only [List.map_cons, List.nodup_cons] at hnd
    rw [List.foldl_cons, ih (jsSet m e.1 e.2) k hnd.2]
    by_cases hk : e.1 = k
    · have hr : jsGet r k = none := by
        apply jsGet_eq_none_of_not_mem
        rw [← hk]
        exact hnd.1
      have hs : jsGet (jsSet m e.1 e.2) k = some e.2 := by
        rw [← hk]
        exact jsGet_jsSet_self m e.1 e.2
      rw [hr, hs]
      simp [jsGet, hk]
    · have hm : jsGet (jsSet m e.1 e.2) k = jsGet m k :=
        jsGet_jsSet_ne m e.1 k e.2 (Ne.symm hk)
      rw [hm]
      have hcons : jsGet (e :: r) k = jsGet r k := by
        simp [jsGet, hk]
      rw [hcons]

theorem fromEntries_get_of_nodup (l : List (String × Nat)) (k : String)
    (hnd : (l.map Prod.fst).Nodup) : jsGet (fromEntries l) k = jsGet l k := by
  rw [fromEntries, foldl_jsSet_get l [] k hnd]
  cases jsGet l k <;> rfl

/-! ## Lemmas about writeBaseline counting -/

theorem countsGo_keys_nodup (F : List Finding) :
    ∀ (m : List (String × Nat)), (m.map Prod.fst).Nodup →
      ((countsGo m F).map Prod.fst).Nodup := by
  induction F with
  | nil => intro m h; exact h
  | cons f r ih =>
    intro m h
    exact ih _ (keys_nodup_jsSet m (keyOf f) _ h)

theorem countsGo_get (F : List Finding) :
    ∀ (m : List (String × Nat)) (k : String),
      (jsGet (countsGo m F) k).getD 0
        = (jsGet m k).getD 0 + F.countP (fun f => keyOf f == k) := by
  induction F with
  | nil => intro m k; simp [countsGo]
  | cons f r ih =>
    intro m k
    rw [countsGo, ih]
    by_cases hk : keyOf f = k
    · subst hk
      rw [jsGet_jsSet_self]
      simp [List.countP_cons]
      omega
    · rw [jsGet_jsSet_ne m (keyOf f) k _ (Ne.symm hk)]
      have : (keyOf f == k) = false := by
        simp [hk]
      simp [List.countP_cons, this]

/-! ## The per-signature behaviour of applyBaseline -/

theorem applyGo_filter (A : List (String × Nat)) (S : String) :
    ∀ (l : List Finding) (seen : List (String × Nat)),
      (applyGo A seen l).filter (fun f => keyOf f == S)
        = (l.filter (fun f => keyOf f == S)).drop
            ((jsGet A S).getD 0 - (jsGet seen S).getD 0) := by
  intro l
  induction l with
  | nil => intro seen; simp [applyGo]
  | cons f r ih =>
    intro seen
    by_cases hcl : (jsGet seen (keyOf f)).getD 0 < (jsGet A (keyOf f)).getD 0
    · rw [applyGo, if_pos hcl, ih]
      by_cases hk : keyOf f = S
      · subst hk
        rw [jsGet_jsSet_self]
        have hpred : (keyOf f == keyOf f) = true := by simp
        simp only [List.filter_cons, hpred, if_pos]
        simp only [Option.getD_some]
        have harith : (jsGet A (keyOf f)).getD 0 - (jsGet seen (keyOf f)).getD 0
            = ((jsGet A (keyOf f)).getD 0 - ((jsGet seen (keyOf f)).getD 0 + 1)) + 1 := by
          omega
        rw [harith, List.drop_succ_cons]
      · rw [jsGet_jsSet_ne seen (keyOf f) S _ (Ne.symm hk)]
        have hpred : (keyOf f == S) = false := by simp [hk]
        simp only [List.filter_cons, hpred]
        simp
    · rw [applyGo, if_neg hcl]
      by_cases hk : keyOf f = S
      · subst hk
        have hpred : (keyOf f == keyOf f) = true := by simp
        simp only [List.filter_cons, hpred, if_pos, ih]
        have harith : (jsGet A (keyOf f)).getD 0 - (jsGet seen (keyOf f)).getD 0 = 0 := by
          omega
        rw [harith, List.drop_zero, List.drop_zero]
      · have hpred : (keyOf f == S) = false := by simp [hk]
        simp [List.filter_cons, hpred, ih]

theorem filter_keys_nil (l : List Finding)
    (h : ∀ S : String, l.filter (fun f => keyOf f == S) = []) : l = [] := by
  cases l with
  | nil => rfl
  | cons f r =>
    have := h (keyOf f)
    simp [List.filter_cons] at this

/-- C2: Baseline round-trip. For every finding list F, applying the
baseline written from F back to F itself suppresses every element:
applyBaseline F (writeBaseline F) is the empty list. -/
theorem applyBaseline_writeBaseline_roundTrip (F : List Finding) :
    applyBaseline F (writeBaseline F) = [] := by
  apply filter_keys_nil
  intro S
  rw [applyBaseline, applyGo_filter]
  have hnd : (((writeBaseline F).items).map Prod.fst).Nodup :=
    countsGo_keys_nodup F [] (by simp)
  rw [fromEntries_get_of_nodup _ S hnd]
  show (List.filter _ F).drop ((jsGet (countsGo [] F) S).getD 0 - _) = []
  rw [countsGo_get F [] S]
  simp only [jsGet, Option.getD_none, Nat.zero_add, Nat.sub_zero]
  rw [List.countP_eq_length_filter]
  exact List.drop_length _

/-- C3: For every finding list, every baseline with duplicate-free keys,
and every signature S, applyBaseline drops exactly the first
min(occurrences of S, recorded count for S) findings with signature S and
keeps exactly the excess later occurrences, so the findings with
signature S in the output are the findings-order suffix past the recorded
count; a signature absent from the baseline has recorded count 0 and
suppresses nothing. -/
theorem applyBaseline_per_signature (F : List Finding) (b : Baseline) (S : String)
    (hnd : (b.items.map Prod.fst).Nodup) :
    (applyBaseline F b).filter (fun f => keyOf f == S)
        = (F.filter (fun f => keyOf f == S)).drop ((jsGet b.items S).getD 0)
    ∧ (F.filter (fun f => keyOf f == S)).length
        - ((applyBaseline F b).filter (fun f => keyOf f == S)).length
      = min (F.filter (fun f => keyOf f == S)).length ((jsGet b.items S).getD 0) := by
  have h1 : (applyBaseline F b).filter (fun f => keyOf f == S)
      = (F.filter (fun f => keyOf f == S)).drop ((jsGet b.items S).getD 0) := by
    rw [applyBaseline, applyGo_filter, fromEntries_get_of_nodup _ S hnd]
    simp [jsGet]
  refine ⟨h1, ?_⟩
  rw [h1, List.length_drop]
  omega

/-! ## Exit code contract -/

theorem summarize_foldl_blocker (F : List Finding) :
    ∀ acc : Summary,
      (F.foldl (fun a f => bump a f.severity) acc).blocker
        = acc.blocker + F.countP (fun f => f.severity == Severity.blocker) := by
  induction F with
  | nil => intro acc; simp
  | cons f r ih =>
    intro acc
    rw [List.foldl_cons, ih]
    cases hs : f.severity <;> (simp [bump, List.countP_cons, hs]; try omega)

theorem summarize_foldl_high (F : List Finding) :
    ∀ acc : Summary,
      (F.foldl (fun a f => bump a f.severity) acc).high
        = acc.high + F.countP (fun f => f.severity == Severity.high) := by
  induction F with
  | nil => intro acc; simp
  | cons f r ih =>
    intro acc
    rw [List.foldl_cons, ih]
    cases hs : f.severity <;> (simp [bump, List.countP_cons, hs]; try omega)

/-- C6: Exit-code contract. In strict mode the exit status is 2 when some
finding has severity blocker, else 1 when some finding has severity high,
else 0, regardless of med/low/info findings; non-strict mode always
returns status 0. -/
theorem exitCode_contract (F : List Finding) :
    exitCode F false = 0
    ∧ exitCode F true
        = (if F.any (fun f => f.severity == Severity.blocker) then 2
           else if F.any (fun f => f.severity == Severity.high) then 1 else 0) := by
  constructor
  · rfl
  · have hb : (summarize F).blocker = F.countP (fun f => f.severity == Severity.blocker) := by
      rw [summarize, summarize_foldl_blocker]
      simp
    have hh : (summarize F).high = F.countP (fun f => f.severity == Severity.high) := by
      rw [summarize, summarize_foldl_high]
      simp
    rw [exitCode]
    simp only [Bool.not_true, if_neg (by simp : ¬ (false = true))]
    by_cases h1 : F.any (fun f => f.severity == Severity.blocker)
    · have : (summarize F).blocker ≠ 0 := by
        rw [hb]
        rcases List.any_eq_true.mp h1 with ⟨f, hf, hp⟩
        have hpos : 0 < F.countP (fun f => f.severity == Severity.blocker) :=
          List.countP_pos_iff.mpr ⟨f, hf, hp⟩
        omega
      simp [this, h1]
    · have hb0 : (summarize F).blocker = 0 := by
        rw [hb]
        by_contra hne
        have hpos : 0 < F.countP (fun f => f.severity == Severity.blocker) :=
          Nat.pos_of_ne_zero hne
        rcases List.countP_pos_iff.mp hpos with ⟨f, hf, hp⟩
        exact h1 (List.any_eq_true.mpr ⟨f, hf, hp⟩)
      by_cases h2 : F.any (fun f => f.severity == Severity.high)
      · have : (summarize F).high ≠ 0 := by
          rw [hh]
          rcases List.any_eq_true.mp h2 with ⟨f, hf, hp⟩
          have hpos : 0 < F.countP (fun f => f.severity == Severity.high) :=
            List.countP_pos_iff.mpr ⟨f, hf, hp⟩
          omega
        simp [hb0, this, h1, h2]
      · have hh0 : (summarize F).high = 0 := by
          rw [hh]
          by_contra hne
          have hpos : 0 < F.countP (fun f => f.severity == Severity.high) :=
            Nat.pos_of_ne_zero hne
          rcases List.countP_pos_iff.mp hpos with ⟨f, hf, hp⟩
          exact h2 (List.any_eq_true.mpr ⟨f, hf, hp⟩)
        simp [hb0, hh0, h1, h2]


/-! ## Lemmas about sets, uniq and the discovery loop -/

theorem mem_sAdd_of_mem (s : List String) (x y : String) (h : x ∈ s) :
    x ∈ sAdd s y := by
  rw [sAdd]
  split
  · exact h
  · exact List.mem_append_left _ h

theorem foldl_sAdd_mem (l : List String) :
    ∀ (g : List String) (x : String), x ∈ g → x ∈ l.foldl sAdd g := by
  induction l with
  | nil => intro g x h; exact h
  | cons s r ih =>
    intro g x h
    rw [List.foldl_cons]
    exact ih (sAdd g s) x (mem_sAdd_of_mem g x s h)

theorem dGo_guards_mono (rf : String → String) (files : List String) :
    ∀ (rels : List String) (acc : DiscoveredAuth) (x : String),
      x ∈ acc.guards → x ∈ (dGo rf files rels acc).guards := by
  induction files with
  | nil => intro rels acc x h; exact h
  | cons abs fs ih =>
    intro rels acc x h
    rw [dGo]
    split
    · exact ih _ _ _ h
    · split
      · exact ih _ _ _ h
      · show x ∈ (if rf abs = "" then dGo rf fs rels.tail acc
            else dGo rf fs rels.tail
              { guards := List.foldl sAdd acc.guards (discoverAuthGuardsFromCode (rf abs)),
                publicApiExact := acc.publicApiExact ++ (discoverPublicApiHints (rf abs)).1,
                publicApiPrefix := acc.publicApiPrefix ++ (discoverPublicApiHints (rf abs)).2.1,
                proxyApiPrefix := acc.proxyApiPrefix ++ (discoverPublicApiHints (rf abs)).2.2
                  ++ inferProxyPrefixesFromPath (toPosix (rels.headD abs)) }).guards
        split
        · exact ih _ _ _ h
        · exact ih _ _ _ (foldl_sAdd_mem _ _ _ h)

theorem mem_jsUniqGo_or (l : List String) :
    ∀ (seen : List String) (x : String), x ∈ l → x ∈ jsUniqGo seen l ∨ x ∈ seen := by
  induction l with
  | nil => intro seen x h; cases h
  | cons s r ih =>
    intro seen x hx
    by_cases hs : s ∈ seen
    · rw [jsUniqGo, if_pos hs]
      rcases List.mem_cons.mp hx with rfl | hxr
      · exact Or.inr hs
      · exact ih seen x hxr
    · rw [jsUniqGo, if_neg hs]
      rcases List.mem_cons.mp hx with rfl | hxr
      · exact Or.inl (List.mem_cons_self _ _)
      · rcases ih (s :: seen) x hxr with h1 | h1
        · exact Or.inl (List.mem_cons_of_mem _ h1)
        · rcases List.mem_cons.mp h1 with rfl | h2
          · exact Or.inl (List.mem_cons_self _ _)
          · exact Or.inr h2

theorem mem_uniq_of_mem {arr : List String} {x : String}
    (hx : x ∈ arr) (hne : x ≠ "") : x ∈ uniq arr := by
  have hf : x ∈ arr.filter (fun s => s ≠ "") := by
    simp [List.mem_filter, hx, hne]
  rcases mem_jsUniqGo_or _ [] x hf with h | h
  · exact h
  · cases h

/-- C10: For every scan context, the guards set returned by the discovery
prepass contains every one of the ten built-in catalogue names, because
the result set is seeded with the whole catalogue before any file is
scanned; in particular this holds for an empty corpus or a corpus without
any guard occurrence. -/
theorem discoverAuthGuards_catalogue_seeded (ctx : RuleContext) (g : String)
    (hg : g ∈ COMMON_GUARDS) : g ∈ (discoverAuthGuards ctx).guards := by
  have hne : g ≠ "" := by
    have hall : COMMON_GUARDS.all (fun s => decide (s ≠ "")) = true := by decide
    exact of_decide_eq_true (List.all_eq_true.mp hall g hg)
  have h1 : g ∈ (dGo ctx.readFile ctx.files ctx.relPaths
      { guards := COMMON_GUARDS, publicApiExact := [], publicApiPrefix := [],
        proxyApiPrefix := [] }).guards :=
    dGo_guards_mono ctx.readFile ctx.files ctx.relPaths _ g hg
  have h2 : g ∈ uniq ((dGo ctx.readFile ctx.files ctx.relPaths
      { guards := COMMON_GUARDS, publicApiExact := [], publicApiPrefix := [],
        proxyApiPrefix := [] }).guards) := mem_uniq_of_mem h1 hne
  simp only [discoverAuthGuards, mergeWithUserConfig]
  exact mem_uniq_of_mem (List.mem_append_left _ h2) hne

/-- Witness for C10 at a concrete empty-corpus context and the catalogue
name auth. -/
theorem discoverAuthGuards_catalogue_seeded_witness :
    "auth" ∈ (discoverAuthGuards exCtx).guards :=
  discoverAuthGuards_catalogue_seeded exCtx ("auth") (by decide)

/-- C7 counterexample: a user-configured guard entry consisting of one
space is dropped by the merge (its trimmed form is empty), so the merged
guards set is not a superset of the user configuration as stated. -/
theorem discovery_merge_drops_blank_entry :
    " " ∈ exCtxBlank.config.auth.guards
    ∧ " " ∉ (discoverAuthGuards exCtxBlank).guards
    ∧ "" ∉ (discoverAuthGuards exCtxBlank).guards := by
  decide

/-- C7 as amended: every user-configured guard name whose trimmed form is
nonempty appears (trimmed) in the merged guards, and every user-configured
public-exact, public-prefix and proxy-prefix path entry whose normalised
form is nonempty appears (normalised) in the corresponding merged list,
for every scan context, even when discovery finds nothing. -/
theorem discovery_merge_superset (ctx : RuleContext) :
    (∀ g ∈ ctx.config.auth.guards, jsTrim g ≠ "" →
        jsTrim g ∈ (discoverAuthGuards ctx).guards)
    ∧ (∀ e ∈ ctx.config.auth.publicApiExact, normalizeApiPath e ≠ "" →
        normalizeApiPath e ∈ (discoverAuthGuards ctx).publicApiExact)
    ∧ (∀ e ∈ ctx.config.auth.publicApiPrefix, normalizeApiPath e ≠ "" →
        normalizeApiPath e ∈ (discoverAuthGuards ctx).publicApiPrefix)
    ∧ (∀ e ∈ ctx.config.auth.proxyApiPrefix, normalizeApiPath e ≠ "" →
        normalizeApiPath e ∈ (discoverAuthGuards ctx).proxyApiPrefix) := by
  refine ⟨fun g hg hne => ?_, fun e he hne => ?_, fun e he hne => ?_, fun e he hne => ?_⟩
  · simp only [discoverAuthGuards, mergeWithUserConfig]
    apply mem_uniq_of_mem _ hne
    apply List.mem_append_right
    rw [List.mem_filter]
    refine ⟨List.mem_map_of_mem jsTrim hg, by simpa using hne⟩
  · simp only [discoverAuthGuards, mergeWithUserConfig]
    exact mem_uniq_of_mem (List.mem_append_right _ (List.mem_map_of_mem _ he)) hne
  · simp only [discoverAuthGuards, mergeWithUserConfig]
    exact mem_uniq_of_mem (List.mem_append_right _ (List.mem_map_of_mem _ he)) hne
  · simp only [discoverAuthGuards, mergeWithUserConfig]
    exact mem_uniq_of_mem (List.mem_append_right _ (List.mem_map_of_mem _ he)) hne

/-- Witness for the amended C7 at a concrete context with nonempty
configuration entries. -/
theorem discovery_merge_superset_witness :
    jsTrim ("customGuard") ∈ (discoverAuthGuards exCtxCfg).guards
    ∧ normalizeApiPath ("api/health/") ∈ (discoverAuthGuards exCtxCfg).publicApiExact :=
  ⟨(discovery_merge_superset exCtxCfg).1 ("customGuard") (by decide) (by decide),
   (discovery_merge_superset exCtxCfg).2.1 ("api/health/") (by decide) (by decide)⟩

/-- C1: Crash isolation of the execution engine.  If one applicable rule
fails with message e, runRules returns, in place of that rule and its
findings, exactly one info finding attributed to the rule id and carrying
the failure message, and the findings contributed by every other rule are
exactly what they are when the failing rule instead succeeds with any
finding list; the engine function itself is total. -/
theorem runRules_crash_isolation (ctx : RuleContext) (pre post : List MRule)
    (r : MRule) (e : String) (fs : List Finding)
    (happ : stackApplies ctx r = true)
    (herr : r.run (enrich ctx) = Except.error e) :
    runRules ctx (pre ++ r :: post)
      = runRules ctx pre
        ++ [{ ruleId := r.id, severity := Severity.info,
              message := "Rule crashed: " ++ e, file := ctx.rootDir }]
        ++ post.flatMap (runOne (enrich ctx))
    ∧ runRules ctx (pre ++ { r with run := fun _ => Except.ok fs } :: post)
      = runRules ctx pre ++ fs ++ post.flatMap (runOne (enrich ctx)) := by
  have happ1 : stackApplies (enrich ctx) r = true := happ
  have happ2 : stackApplies (enrich ctx) { r with run := fun _ => Except.ok fs } = true := happ
  have hroot : (enrich ctx).rootDir = ctx.rootDir := rfl
  constructor
  · simp [runRules, List.flatMap_append, List.flatMap_cons, runOne, happ1, herr, hroot]
  · simp [runRules, List.flatMap_append, List.flatMap_cons, runOne, happ2]

/-- Witness for C1 at a concrete context and a concrete always-failing
rule. -/
theorem runRules_crash_isolation_witness :
    runRules exCtx ([] ++ exBoomRule :: [])
      = runRules exCtx []
        ++ [{ ruleId := exBoomRule.id, severity := Severity.info,
              message := "Rule crashed: " ++ "kaboom", file := exCtx.rootDir }]
        ++ List.flatMap [] (runOne (enrich exCtx))
    ∧ runRules exCtx ([] ++ { exBoomRule with run := fun _ => Except.ok [] } :: [])
      = runRules exCtx [] ++ [] ++ List.flatMap [] (runOne (enrich exCtx)) :=
  runRules_crash_isolation exCtx [] [] exBoomRule ("kaboom") [] (by decide) rfl

/-! ## Lemmas about splitRN and firstLineCol -/

theorem splitRN_ne_nil (l : List Char) : splitRN l ≠ [] := by
  induction l using splitRN.induct with
  | case1 => simp [splitRN]
  | case2 rest ih => simp [splitRN]
  | case3 rest ih => simp [splitRN]
  | case4 c rest h1 h2 h t hsp ih =>
    simp only [splitRN]
    rw [hsp]
    simp
  | case5 c rest h1 h2 hsp ih => exact absurd hsp ih

theorem splitRN_length (l : List Char) : (splitRN l).length = 1 + l.count '\n' := by
  induction l using splitRN.induct with
  | case1 => simp [splitRN]
  | case2 rest ih =>
    simp only [splitRN, List.length_cons, List.count_cons, ih]
    simp
    omega
  | case3 rest ih =>
    simp only [splitRN, List.length_cons, List.count_cons, ih]
    simp
    omega
  | case4 c rest h1 h2 h t hsp ih =>
    have hc : c ≠ '\n' := h2
    simp only [splitRN]
    rw [hsp]
    rw [hsp] at ih
    simp only [List.length_cons] at ih ⊢
    simp [List.count_cons, hc]
    omega
  | case5 c rest h1 h2 hsp ih => exact absurd hsp (splitRN_ne_nil rest)

theorem takeWhile_append_stop (p : Char → Bool) (xs zs : List Char)
    (hp : p '\n' = false) :
    List.takeWhile p (xs ++ '\n' :: zs) = List.takeWhile p xs := by
  induction xs with
  | nil => simp [List.takeWhile_cons, hp]
  | cons c xs ih =>
    cases hpc : p c
    · simp [List.takeWhile_cons, hpc]
    · simp [List.takeWhile_cons, hpc, ih]

theorem takeWhile_append_of_mem (p : Char → Bool) (xs ys : List Char)
    (hp : p '\n' = false) (hmem : '\n' ∈ xs) :
    List.takeWhile p (xs ++ ys) = List.takeWhile p xs := by
  induction xs with
  | nil => cases hmem
  | cons c xs ih =>
    cases hpc : p c
    · simp [List.takeWhile_cons, hpc]
    · have hcne : c ≠ '\n' := by
        intro hh
        rw [hh] at hpc
        rw [hp] at hpc
        cases hpc
      have hmem2 : '\n' ∈ xs := by
        rcases List.mem_cons.mp hmem with hh | hh
        · exact absurd hh.symm hcne
        · exact hh
      simp [List.takeWhile_cons, hpc, ih hmem2]

theorem takeWhile_eq_self_of_all (p : Char → Bool) (xs : List Char)
    (h : ∀ c ∈ xs, p c = true) : List.takeWhile p xs = xs := by
  induction xs with
  | nil => rfl
  | cons c r ih =>
    have hc : p c = true := h c (List.mem_cons_self _ _)
    have h2 : ∀ x ∈ r, p x = true := fun x hx => h x (List.mem_cons_of_mem _ hx)
    simp [List.takeWhile_cons, hc, ih h2]

theorem splitRN_lastSeg (l : List Char) :
    lastSeg (splitRN l) = (l.reverse.takeWhile (fun c => c ≠ '\n')).reverse := by
  induction l using splitRN.induct with
  | case1 => simp [splitRN, lastSeg]
  | case2 rest ih =>
    have hls : lastSeg ([] :: splitRN rest) = lastSeg (splitRN rest) := by
      cases hsp : splitRN rest with
      | nil => exact absurd hsp (splitRN_ne_nil rest)
      | cons h t => rfl
    simp only [splitRN]
    rw [hls, ih]
    have hrev : ('\r' :: '\n' :: rest : List Char).reverse = rest.reverse ++ '\n' :: ['\r'] := by
      simp
    rw [hrev, takeWhile_append_stop (fun c => c ≠ '\n') rest.reverse ['\r'] (by decide)]
  | case3 rest ih =>
    have hls : lastSeg ([] :: splitRN rest) = lastSeg (splitRN rest) := by
      cases hsp : splitRN rest with
      | nil => exact absurd hsp (splitRN_ne_nil rest)
      | cons h t => rfl
    simp only [splitRN]
    rw [hls, ih]
    have hrev : ('\n' :: rest : List Char).reverse = rest.reverse ++ '\n' :: [] := by
      simp
    rw [hrev, takeWhile_append_stop (fun c => c ≠ '\n') rest.reverse [] (by decide)]
  | case4 c rest h1 h2 h t hsp ih =>
    have hc : c ≠ '\n' := h2
    simp only [splitRN]
    rw [hsp]
    rw [hsp] at ih
    have hlen := splitRN_length rest
    rw [hsp] at hlen
    cases t with
    | nil =>
      have hnomem : '\n' ∉ rest := by
        intro hm
        have hpos : 0 < rest.count '\n' := List.count_pos_iff.mpr hm
        simp only [List.length_cons, List.length_nil] at hlen
        omega
      have hih : h = rest := by
        have h3 := ih
        simp only [lastSeg] at h3
        rw [takeWhile_eq_self_of_all (fun ch => ch ≠ '\n') rest.reverse
              (by
                intro x hx
                simp only [decide_eq_true_eq]
                intro hxe
                exact hnomem (hxe ▸ List.mem_reverse.mp hx))] at h3
        simpa using h3
      show lastSeg [c :: h] = ((c :: rest).reverse.takeWhile (fun ch => ch ≠ '\n')).reverse
      have hrev : (c :: rest : List Char).reverse = rest.reverse ++ [c] := by simp
      rw [hrev, takeWhile_eq_self_of_all (fun ch => ch ≠ '\n') (rest.reverse ++ [c])
            (by
              intro x hx
              simp only [decide_eq_true_eq]
              intro hxe
              rcases List.mem_append.mp hx with hm1 | hm1
              · exact hnomem (hxe ▸ List.mem_reverse.mp hm1)
              · simp only [List.mem_singleton] at hm1
                exact hc (hm1.symm.trans hxe))]
      simp [lastSeg, hih]
    | cons t0 ts =>
      have hmem : '\n' ∈ rest := by
        have hpos : 0 < rest.count '\n' := by
          simp only [List.length_cons] at hlen
          omega
        exact List.count_pos_iff.mp hpos
      have hstep : lastSeg ((c :: h) :: t0 :: ts) = lastSeg (h :: t0 :: ts) := rfl
      rw [hstep, ih]
      have hrev : (c :: rest : List Char).reverse = rest.reverse ++ [c] := by simp
      rw [hrev, takeWhile_append_of_mem (fun ch => ch ≠ '\n') rest.reverse [c]
            (by decide) (List.mem_reverse.mpr hmem)]
  | case5 c rest h1 h2 hsp ih => exact absurd hsp (splitRN_ne_nil rest)

/-- C8 counterexample: a finding located at the first character of a file
gets column 0, not column 1: the column the source computes is the length
of the text before the location on its line, with no 1 added. -/
theorem firstLineCol_counterexample :
    firstLineCol ("abc") 0 = (1, 0) ∧ (firstLineCol ("abc") 0).2 ≠ 1 := by
  decide

/-- C8 as amended: line is 1-based (one plus the number of line
terminators before the location) but col is 0-based: it equals the number
of characters between the last line terminator and the location, so the
first character of a file has line 1 and col 0; the SARIF renderer, not
the finding itself, produces the 1-based column by adding one. -/
theorem firstLineCol_zero_based (code : String) (idx : Nat) :
    (firstLineCol code idx).1 = 1 + (code.toList.take idx).count '\n'
    ∧ (firstLineCol code idx).2
        = ((code.toList.take idx).reverse.takeWhile (fun c => c ≠ '\n')).length
    ∧ (∀ f : Finding, sarifRegion f = (f.line.getD 1, f.col.getD 0 + 1)) := by
  refine ⟨?_, ?_, fun f => rfl⟩
  · simp only [firstLineCol]
    exact splitRN_length _
  · simp only [firstLineCol]
    rw [splitRN_lastSeg]
    simp

/-- Witness for C3 at a concrete pair of identical findings and a
baseline recording count 1 for their signature: one is suppressed and one
surfaces. -/
theorem applyBaseline_per_signature_witness :
    (applyBaseline [exFinding, exFinding]
        { version := 1, items := [(keyOf exFinding, 1)] }).filter
          (fun f => keyOf f == keyOf exFinding)
      = (([exFinding, exFinding] : List Finding).filter
          (fun f => keyOf f == keyOf exFinding)).drop
            ((jsGet [(keyOf exFinding, 1)] (keyOf exFinding)).getD 0)
    ∧ (([exFinding, exFinding] : List Finding).filter
          (fun f => keyOf f == keyOf exFinding)).length
        - ((applyBaseline [exFinding, exFinding]
            { version := 1, items := [(keyOf exFinding, 1)] }).filter
              (fun f => keyOf f == keyOf exFinding)).length
      = min (([exFinding, exFinding] : List Finding).filter
              (fun f => keyOf f == keyOf exFinding)).length
          ((jsGet [(keyOf exFinding, 1)] (keyOf exFinding)).getD 0) :=
  applyBaseline_per_signature [exFinding, exFinding]
    { version := 1, items := [(keyOf exFinding, 1)] } (keyOf exFinding) (by simp)

/-! ## Lemmas about the snippet scanner -/

theorem afterChar_suffix (target : Char) (l : List Char) :
    ∀ r, afterChar target l = some r → r <:+ l := by
  induction l with
  | nil => intro r h; simp [afterChar] at h
  | cons c rest ih =>
    intro r h
    rw [afterChar] at h
    by_cases hc : c = target
    · rw [if_pos hc] at h
      injection h with h
      rw [← h]
      exact List.suffix_cons c rest
    · rw [if_neg hc] at h
      exact (ih r h).trans (List.suffix_cons c rest)

set_option maxHeartbeats 1600000 in
theorem skipTrivia_suffix (m : SkipMode) (l : List Char) :
    ∀ r, skipTrivia m l = some r → r <:+ l := by
  induction m, l using skipTrivia.induct with
  | case1 =>
    intro r h
    simp only [skipTrivia, Option.some.injEq] at h
    rw [← h]
  | case2 rest ih =>
    intro r h
    simp only [skipTrivia] at h
    exact ((ih r h).trans (List.suffix_cons '/' rest)).trans
      (List.suffix_cons '/' ('/' :: rest))
  | case3 rest ih =>
    intro r h
    simp only [skipTrivia] at h
    exact ((ih r h).trans (List.suffix_cons '*' rest)).trans
      (List.suffix_cons '/' ('*' :: rest))
  | case4 c rest hx1 hx2 hsp ih =>
    intro r h
    simp only [skipTrivia] at h
    rw [if_pos hsp] at h
    exact (ih r h).trans (List.suffix_cons c rest)
  | case5 c rest hx1 hx2 hsp =>
    intro r h
    simp only [skipTrivia] at h
    rw [if_neg hsp] at h
    injection h with h
    rw [← h]
  | case6 =>
    intro r h
    simp only [skipTrivia] at h
    exact Option.noConfusion h
  | case7 rest ih =>
    intro r h
    simp only [skipTrivia] at h
    exact (ih r h).trans (List.suffix_cons '\n' rest)
  | case8 c rest hx ih =>
    intro r h
    simp only [skipTrivia] at h
    exact (ih r h).trans (List.suffix_cons c rest)
  | case9 =>
    intro r h
    simp only [skipTrivia] at h
    exact Option.noConfusion h
  | case10 rest ih =>
    intro r h
    simp only [skipTrivia] at h
    exact ((ih r h).trans (List.suffix_cons '/' rest)).trans
      (List.suffix_cons '*' ('/' :: rest))
  | case11 c rest hx ih =>
    intro r h
    simp only [skipTrivia] at h
    exact (ih r h).trans (List.suffix_cons c rest)

theorem count_cons_step (c : Char) (l : List Char) (d : Int) :
    (((c :: l).count '{' : Int) - ((c :: l).count '}' : Int))
      = ((if c = '{' then d + 1 else if c = '}' then d - 1 else d) - d)
        + ((l.count '{' : Int) - (l.count '}' : Int)) := by
  by_cases hb : c = '{'
  · subst hb
    simp [List.count_cons]
    ring
  · by_cases hb2 : c = '}'
    · subst hb2
      simp [List.count_cons, hb]
      ring
    · simp [List.count_cons, hb, hb2]

theorem scanBraces_sound (l : List Char) :
    ∀ (d : Int) (t : List Char), 1 ≤ d → scanBraces d l = some t →
      t ≠ [] ∧ t <+: l
      ∧ d + ((t.count '{' : Int) - (t.count '}' : Int)) = 0
      ∧ t.getLast? = some '}'
      ∧ ∀ p, p <+: t → p ≠ t →
          0 < d + ((p.count '{' : Int) - (p.count '}' : Int)) := by
  induction l with
  | nil => intro d t hd h; simp [scanBraces] at h
  | cons c rest ih =>
    intro d t hd h
    simp only [scanBraces] at h
    by_cases h0 : (if c = '{' then d + 1 else if c = '}' then d - 1 else d) = 0
    · rw [if_pos h0] at h
      injection h with h
      have hc : c = '}' ∧ d = 1 := by
        by_cases hb : c = '{'
        · rw [if_pos hb] at h0
          exfalso
          omega
        · by_cases hb2 : c = '}'
          · rw [if_neg hb, if_pos hb2] at h0
            exact ⟨hb2, by omega⟩
          · rw [if_neg hb, if_neg hb2] at h0
            exfalso
            omega
      obtain ⟨hcb, hd1⟩ := hc
      subst hcb
      rw [← h]
      refine ⟨by simp, ⟨rest, rfl⟩, ?_, rfl, ?_⟩
      · simp [List.count_cons]
        omega
      · intro p hp hne
        cases p with
        | nil =>
          simp
          omega
        | cons x xs =>
          exfalso
          obtain ⟨s1, hs1⟩ := hp
          cases xs with
          | nil =>
            cases s1 with
            | nil =>
              apply hne
              have := hs1
              simpa using this
            | cons y ys => simp at hs1
          | cons z zs => simp at hs1
    · rw [if_neg h0] at h
      obtain ⟨t', hscan, ht⟩ := Option.map_eq_some'.mp h
      have hd1 : 1 ≤ (if c = '{' then d + 1 else if c = '}' then d - 1 else d) := by
        by_cases hb : c = '{'
        · rw [if_pos hb]
          omega
        · by_cases hb2 : c = '}'
          · rw [if_neg hb, if_pos hb2]
            rw [if_neg hb, if_pos hb2] at h0
            omega
          · rw [if_neg hb, if_neg hb2]
            omega
      obtain ⟨hne', hpre, hcnt, hlast, hpref⟩ := ih _ _ hd1 hscan
      rw [← ht]
      refine ⟨by simp, List.cons_prefix_cons.mpr ⟨rfl, hpre⟩, ?_, ?_, ?_⟩
      · rw [count_cons_step c t' d]
        omega
      · cases t' with
        | nil => exact absurd rfl hne'
        | cons a l2 =>
          rw [List.getLast?_cons_cons]
          exact hlast
      · intro p hp hne
        cases p with
        | nil =>
          simp
          omega
        | cons x xs =>
          obtain ⟨hx, hxs⟩ := List.cons_prefix_cons.mp hp
          subst hx
          have hxs2 : xs ≠ t' := by
            intro hh
            exact hne (by rw [hh])
          have hrec := hpref xs hxs hxs2
          rw [count_cons_step x xs d]
          omega

/-- C4: Scanner totality and balance.  Whenever the inline-argument
extractor produces a block, the block starts with an opening brace, ends
with the closing brace at which the brace depth first returns to zero
(equal brace counts, every proper nonempty prefix strictly deeper), and
is a substring of the input; the extractor is a total function, so it
never throws, and on truncated or malformed input it produces none
rather than an unbalanced substring. -/
theorem extractInlineFirstArgObject_balanced (s t : List Char)
    (h : extractInlineFirstArgObject s = some t) :
    t.head? = some '{' ∧ t.getLast? = some '}'
    ∧ t.count '{' = t.count '}'
    ∧ (∀ p, p <+: t → p ≠ [] → p ≠ t → p.count '}' < p.count '{')
    ∧ t <:+: s := by
  cases hap : afterChar '(' s with
  | none =>
    simp only [extractInlineFirstArgObject, hap] at h
    exact Option.noConfusion h
  | some ap =>
    cases hskip : skipTrivia SkipMode.norm ap with
    | none =>
      simp only [extractInlineFirstArgObject, hap, hskip] at h
      exact Option.noConfusion h
    | some sig =>
      simp only [extractInlineFirstArgObject, hap, hskip] at h
      split at h
      case _ tail =>
        simp only [scanBraces, if_true] at h
        rw [if_neg (by norm_num : ¬((0 : Int) + 1 = 0))] at h
        obtain ⟨t', hscan, ht⟩ := Option.map_eq_some'.mp h
        obtain ⟨hne', hpre, hcnt, hlast, hpref⟩ :=
          scanBraces_sound tail 1 t' (by omega) hscan
        rw [← ht]
        refine ⟨rfl, ?_, ?_, ?_, ?_⟩
        · cases t' with
          | nil => exact absurd rfl hne'
          | cons a l2 =>
            rw [List.getLast?_cons_cons]
            exact hlast
        · simp only [List.count_cons]
          simp
          omega
        · intro p hp hpn hpt
          cases p with
          | nil => exact absurd rfl hpn
          | cons x xs =>
            obtain ⟨hx, hxs⟩ := List.cons_prefix_cons.mp hp
            subst hx
            have hxs2 : xs ≠ t' := by
              intro hh
              exact hpt (by rw [hh])
            have hrec := hpref xs hxs hxs2
            simp only [List.count_cons]
            simp
            omega
        · have h1 : '{' :: t' <+: '{' :: tail :=
            List.cons_prefix_cons.mpr ⟨rfl, hpre⟩
          have h2 : ('{' :: tail) <:+ ap :=
            skipTrivia_suffix SkipMode.norm ap ('{' :: tail) hskip
          have h3 : ap <:+ s := afterChar_suffix '(' s ap hap
          exact h1.isInfix.trans (h2.trans h3).isInfix
      case _ =>
        exact Option.noConfusion h

/-- Witness for C4 at a concrete call with a nested literal argument. -/
theorem extractInlineFirstArgObject_balanced_witness :
    (("\x7b a: \x7b b: 1 \x7d \x7d").toList).head? = some '{'
    ∧ (("\x7b a: \x7b b: 1 \x7d \x7d").toList).getLast? = some '}'
    ∧ (("\x7b a: \x7b b: 1 \x7d \x7d").toList).count '{'
        = (("\x7b a: \x7b b: 1 \x7d \x7d").toList).count '}'
    ∧ (∀ p, p <+: (("\x7b a: \x7b b: 1 \x7d \x7d").toList) → p ≠ [] →
        p ≠ (("\x7b a: \x7b b: 1 \x7d \x7d").toList) → p.count '}' < p.count '{')
    ∧ (("\x7b a: \x7b b: 1 \x7d \x7d").toList) <:+: (("x(\x7b a: \x7b b: 1 \x7d \x7d)").toList) :=
  extractInlineFirstArgObject_balanced (("x(\x7b a: \x7b b: 1 \x7d \x7d)").toList)
    (("\x7b a: \x7b b: 1 \x7d \x7d").toList) (by decide)

/-- C5: Comment and whitespace skipping.  The extractor returns the block
of the spec example with a block comment before the literal, rejects a
non-literal argument, and in general returns none whenever the first
significant character after the opening parenthesis is not an opening
brace, whenever a comment is unterminated, and whenever there is no
opening parenthesis. -/
theorem extractInlineFirstArgObject_skipping :
    extractInlineFirstArgObject (("foo(/* x */ \x7b a: 1 \x7d)").toList)
        = some (("\x7b a: 1 \x7d").toList)
    ∧ extractInlineFirstArgObject (("foo(args)").toList) = none
    ∧ (∀ s ap sig, afterChar '(' s = some ap →
        skipTrivia SkipMode.norm ap = some sig → sig.head? ≠ some '{' →
        extractInlineFirstArgObject s = none)
    ∧ (∀ s ap, afterChar '(' s = some ap →
        skipTrivia SkipMode.norm ap = none →
        extractInlineFirstArgObject s = none)
    ∧ (∀ s, afterChar '(' s = none → extractInlineFirstArgObject s = none) := by
  refine ⟨by decide, by decide, ?_, ?_, ?_⟩
  · intro s ap sig hap hskip hhead
    simp only [extractInlineFirstArgObject, hap, hskip]
    split
    · rename_i tail
      exact absurd rfl hhead
    · rfl
  · intro s ap hap hskip
    simp only [extractInlineFirstArgObject, hap, hskip]
  · intro s hap
    simp only [extractInlineFirstArgObject, hap]

/-- Witness for C5 at a concrete call whose argument is an identifier. -/
theorem extractInlineFirstArgObject_skipping_witness :
    extractInlineFirstArgObject (("g(x)").toList) = none :=
  extractInlineFirstArgObject_skipping.2.2.1 (("g(x)").toList) (("x)").toList)
    (("x)").toList) (by decide) (by decide) (by decide)

/-! ## Lemmas about the tenant-key matcher -/

theorem isJsSpace_not_word (c : Char) (h : isJsSpace c = true) :
    isWordChar c = false := by
  simp only [isJsSpace, Bool.or_eq_true, Bool.and_eq_true, decide_eq_true_eq] at h
  simp only [isWordChar, Bool.or_eq_false_iff, Bool.and_eq_false_iff]
  simp only [decide_eq_false_iff_not, not_le]
  omega

theorem wsColon_iff (l : List Char) :
    wsColon l = true
      ↔ ∃ ws post, l = ws ++ ':' :: post ∧ ∀ c ∈ ws, isJsSpace c = true := by
  induction l with
  | nil =>
    simp only [wsColon]
    constructor
    · intro h
      exact absurd h (by decide)
    · rintro ⟨ws, post, h, _⟩
      cases ws with
      | nil => exact List.noConfusion h
      | cons a b => exact List.noConfusion h
  | cons c r ih =>
    simp only [wsColon]
    by_cases hc : c = ':'
    · subst hc
      rw [if_pos rfl]
      constructor
      · intro _
        exact ⟨[], r, rfl, by intro x hx; cases hx⟩
      · intro _
        rfl
    · rw [if_neg hc]
      by_cases hw : isJsSpace c = true
      · rw [if_pos hw, ih]
        constructor
        · rintro ⟨ws, post, hdec, hws⟩
          refine ⟨c :: ws, post, by rw [List.cons_append, hdec], ?_⟩
          intro x hx
          rcases List.mem_cons.mp hx with rfl | hx2
          · exact hw
          · exact hws x hx2
        · rintro ⟨ws, post, hdec, hws⟩
          cases ws with
          | nil =>
            exfalso
            injection hdec with h1 h2
            exact hc h1
          | cons w ws2 =>
            injection hdec with h1 h2
            exact ⟨ws2, post, h2, fun x hx => hws x (List.mem_cons_of_mem _ hx)⟩
      · rw [if_neg hw]
        constructor
        · intro h
          exact absurd h (by decide)
        · rintro ⟨ws, post, hdec, hws⟩
          exfalso
          cases ws with
          | nil =>
            injection hdec with h1 h2
            exact hc h1
          | cons w ws2 =>
            injection hdec with h1 h2
            exact hw (h1 ▸ hws w (List.mem_cons_self _ _))

theorem matchesAt_iff (k l : List Char) :
    matchesAt k l = true
      ↔ ∃ ws post, l = k ++ ws ++ ':' :: post ∧ ∀ c ∈ ws, isJsSpace c = true := by
  constructor
  · intro h
    simp only [matchesAt, Bool.and_eq_true] at h
    obtain ⟨hpre, hhead, hcol⟩ := h
    obtain ⟨rest, hrest_eq⟩ := List.isPrefixOf_iff_prefix.mp hpre
    rw [← hrest_eq] at hcol ⊢
    rw [List.drop_left] at hcol
    obtain ⟨ws, post, hdec, hws⟩ := (wsColon_iff rest).mp hcol
    exact ⟨ws, post, by rw [hdec, List.append_assoc], hws⟩
  · rintro ⟨ws, post, hdec, hws⟩
    subst hdec
    simp only [matchesAt, Bool.and_eq_true]
    refine ⟨?_, ?_, ?_⟩
    · exact List.isPrefixOf_iff_prefix.mpr ⟨ws ++ ':' :: post, by simp⟩
    · rw [show k ++ ws ++ ':' :: post = k ++ (ws ++ ':' :: post) from by
        rw [List.append_assoc]]
      rw [List.drop_left]
      cases ws with
      | nil =>
        simp only [List.nil_append, List.head?_cons]
        decide
      | cons w ws2 =>
        simp only [List.cons_append, List.head?_cons]
        rw [isJsSpace_not_word w (hws w (List.mem_cons_self _ _))]
        rfl
    · rw [show k ++ ws ++ ':' :: post = k ++ (ws ++ ':' :: post) from by
        rw [List.append_assoc]]
      rw [List.drop_left]
      exact (wsColon_iff _).mpr ⟨ws, post, rfl, hws⟩

theorem scanKeyGo_iff (k l : List Char) :
    ∀ prev : Option Char,
      scanKeyGo k prev l = true
        ↔ ∃ pre ws post, l = pre ++ k ++ ws ++ ':' :: post
            ∧ (∀ c ∈ ws, isJsSpace c = true)
            ∧ (if pre = [] then boundaryOk prev = true
               else ∃ c, pre.getLast? = some c ∧ isWordChar c = false) := by
  induction l with
  | nil =>
    intro prev
    simp only [scanKeyGo]
    constructor
    · intro h
      exact absurd h (by decide)
    · rintro ⟨pre, ws, post, hdec, _, _⟩
      exfalso
      have hlen : ([] : List Char).length = (pre ++ k ++ ws ++ ':' :: post).length := by
        rw [hdec]
      simp only [List.length_nil, List.length_append, List.length_cons] at hlen
      omega
  | cons c rest ih =>
    intro prev
    simp only [scanKeyGo, Bool.or_eq_true, Bool.and_eq_true]
    constructor
    · rintro (⟨hb, hm⟩ | hr)
      · obtain ⟨ws, post, hdec, hws⟩ := (matchesAt_iff k (c :: rest)).mp hm
        exact ⟨[], ws, post, by simpa using hdec, hws, by simpa using hb⟩
      · obtain ⟨pre, ws, post, hdec, hws, hcond⟩ := (ih (some c)).mp hr
        refine ⟨c :: pre, ws, post, by simp [hdec], hws, ?_⟩
        rw [if_neg (by simp)]
        cases hpre : pre with
        | nil =>
          rw [hpre, if_pos rfl] at hcond
          refine ⟨c, by simp, ?_⟩
          simpa [boundaryOk] using hcond
        | cons p0 pre2 =>
          rw [hpre] at hcond
          rw [if_neg (by simp)] at hcond
          obtain ⟨cc, hlast, hword⟩ := hcond
          refine ⟨cc, ?_, hword⟩
          rw [List.getLast?_cons_cons]
          exact hlast
    · rintro ⟨pre, ws, post, hdec, hws, hcond⟩
      cases pre with
      | nil =>
        left
        rw [if_pos rfl] at hcond
        simp only [List.nil_append] at hdec
        exact ⟨hcond, (matchesAt_iff k (c :: rest)).mpr ⟨ws, post, hdec, hws⟩⟩
      | cons p0 pre2 =>
        right
        rw [if_neg (by simp)] at hcond
        rw [List.cons_append] at hdec
        rw [List.cons_append] at hdec
        rw [List.cons_append] at hdec
        injection hdec with h1 h2
        subst h1
        apply (ih (some c)).mpr
        refine ⟨pre2, ws, post, by simpa using h2, hws, ?_⟩
        cases hpre2 : pre2 with
        | nil =>
          rw [if_pos rfl]
          rw [hpre2] at hcond
          obtain ⟨cc, hlast, hword⟩ := hcond
          simp only [List.getLast?_singleton, Option.some.injEq] at hlast
          simp only [boundaryOk]
          rw [hlast, hword]
          rfl
        | cons q qs =>
          rw [if_neg (by simp)]
          rw [hpre2] at hcond
          obtain ⟨cc, hlast, hword⟩ := hcond
          rw [List.getLast?_cons_cons] at hlast
          exact ⟨cc, hlast, hword⟩

/-- C9: Key detection is word-boundary based, not substring based.  For
identifier-shaped candidate keys, whereHasTenantKey holds exactly when
some candidate key occurs in the block as a bare identifier preceded by a
word boundary and followed, after optional whitespace, by a colon; in
particular the spec examples: orgId is not found inside orgIdentifier,
and a bare orgId followed by a colon is found. -/
theorem whereHasTenantKey_word_boundary :
    (∀ (block : String) (keys : List String),
        (∀ k ∈ keys, IsIdentKey k.toList) →
        (whereHasTenantKey block keys = true
          ↔ ∃ k ∈ keys, KeyOccurs k.toList block.toList))
    ∧ whereHasTenantKey ("\x7b orgIdentifier: 1 \x7d") ["orgId"] = false
    ∧ whereHasTenantKey ("\x7b orgId: 1 \x7d") ["orgId"] = true := by
  refine ⟨?_, by decide, by decide⟩
  intro block keys _hident
  rw [whereHasTenantKey, List.any_eq_true]
  constructor
  · rintro ⟨key, hkey, hmatch⟩
    refine ⟨key, hkey, ?_⟩
    obtain ⟨pre, ws, post, hdec, hws, hcond⟩ :=
      (scanKeyGo_iff key.toList block.toList none).mp hmatch
    refine ⟨pre, ws, post, hdec, hws, ?_⟩
    by_cases hp : pre = []
    · exact Or.inl hp
    · rw [if_neg hp] at hcond
      exact Or.inr hcond
  · rintro ⟨key, hkey, pre, ws, post, hdec, hws, hcond⟩
    refine ⟨key, hkey, ?_⟩
    show scanKeyGo key.toList none block.toList = true
    apply (scanKeyGo_iff key.toList block.toList none).mpr
    refine ⟨pre, ws, post, hdec, hws, ?_⟩
    by_cases hp : pre = []
    · rw [if_pos hp]
      rfl
    · rw [if_neg hp]
      rcases hcond with h | h
      · exact absurd h hp
      · exact h

/-- Witness for C9 at the spec example block and key list. -/
theorem whereHasTenantKey_word_boundary_witness :
    whereHasTenantKey ("\x7b orgId: 1 \x7d") ["orgId"] = true
      ↔ ∃ k ∈ (["orgId"] : List String),
          KeyOccurs k.toList (("\x7b orgId: 1 \x7d").toList) :=
  whereHasTenantKey_word_boundary.1 ("\x7b orgId: 1 \x7d") ["orgId"]
    (by
      intro k hk
      simp only [List.mem_singleton] at hk
      subst hk
      exact ⟨by decide, by decide⟩)

end VibeCheck
